import Mathlib

/-!
Shallow embedding of `download_images.py`, a resumable batch image
downloader.  Pure helpers (`sanitize_filename`, `guess_extension`,
`build_base_and_ext`, `load_logged_names`) are translated directly;
the effectful parts (`download_file`, the loop in `main`) are modelled
as explicit state passing over an `EngineState` record, with the
network abstracted as an oracle `String → FetchResult` and the
filesystem as the list of file names present in the download
directory.  Python library primitives used by the script
(`str.strip`, `re.sub` on a character class, `urllib.parse.urlparse`
path extraction, `pathlib.PurePosixPath` name/stem/suffix) are
modelled character-by-character below.
-/

namespace ImageDL

/-- Whitespace characters stripped by Python `str.strip()` (ASCII part). -/
def pyIsSpace (c : Char) : Bool :=
  c == ' ' || c == '\t' || c == '\n' || c == '\x0D' || c == '\x0B' || c == '\x0C'

/-- Python `str.strip()`: drop leading and trailing whitespace. -/
def pyStrip (s : String) : String :=
  ⟨((s.data.dropWhile pyIsSpace).reverse.dropWhile pyIsSpace).reverse⟩

/-- Python `str.split(sep)` for a single separator character:
always returns at least one (possibly empty) piece. -/
def splitChar (sep : Char) : List Char → List (List Char)
  | [] => [[]]
  | c :: rest =>
    if c = sep then [] :: splitChar sep rest
    else
      match splitChar sep rest with
      | [] => [[c]]
      | p :: ps => (c :: p) :: ps

/-- The characters of `INVALID_CHARS = re.compile(r'[\\/:*?"<>|]')`. -/
def INVALID_CHARS_LIST : List Char := ['\\', '/', ':', '*', '?', '\"', '<', '>', '|']

/-- Membership in the invalid-character class. -/
def isInvalidChar (c : Char) : Bool := INVALID_CHARS_LIST.contains c

/-- One character of `INVALID_CHARS.sub("_", name)`. -/
def replaceInvalid (c : Char) : Char := if isInvalidChar c then '_' else c

/-- `sanitize_filename`: replace every filesystem-hostile character by an
underscore, strip surrounding whitespace, and fall back to `"unnamed"`
when nothing is left. -/
def sanitize_filename (name : String) : String :=
  let cleaned := pyStrip ⟨name.data.map replaceInvalid⟩
  if cleaned = "" then "unnamed" else cleaned

/-! ### `urllib.parse.urlparse(url).path`

CPython `urlsplit`: remove the unsafe bytes tab/CR/LF, strip a leading
`scheme:` (when the prefix before the first colon is a valid scheme),
strip a `//netloc` (up to the first of `/?#`), then cut the fragment
(first `#`) and the query (first `?`); what remains is the path. -/

/-- Characters allowed in a URL scheme. -/
def isSchemeChar (c : Char) : Bool :=
  c.isAlpha || c.isDigit || c == '+' || c == '-' || c == '.'

/-- Drop a leading `scheme:` when present and well formed. -/
def splitSchemeRest (cs : List Char) : List Char :=
  match cs.findIdx? (fun c => c == ':') with
  | some i =>
    if 0 < i ∧ (cs.headD ' ').isAlpha ∧ (cs.take i).all isSchemeChar then
      cs.drop (i + 1)
    else cs
  | none => cs

/-- Drop a leading `//netloc` (everything up to the first `/`, `?` or `#`
after the two slashes). -/
def splitNetlocRest (cs : List Char) : List Char :=
  match cs with
  | '/' :: '/' :: rest => rest.dropWhile (fun c => !(c == '/' || c == '?' || c == '#'))
  | _ => cs

/-- The `.path` component of `urllib.parse.urlparse(url)`. -/
def urlsplitPath (url : String) : String :=
  let cs := url.data.filter (fun c => !(c == '\t' || c == '\x0D' || c == '\n'))
  let cs := splitSchemeRest cs
  let cs := splitNetlocRest cs
  let cs := cs.takeWhile (fun c => c != '#')
  let cs := cs.takeWhile (fun c => c != '?')
  ⟨cs⟩

/-! ### `pathlib.PurePosixPath` name / stem / suffix -/

/-- The components of a POSIX path: split on `/`, dropping empty pieces
and `.` pieces, as `pathlib` does. -/
def pathParts (s : String) : List (List Char) :=
  (splitChar '/' s.data).filter (fun p => p != [] && p != ['.'])

/-- `Path(s).name`: the final component, or `""` when there is none. -/
def pathName (s : String) : String := ⟨(pathParts s).getLastD []⟩

/-- Index of the last `.` in a character list (Python `str.rfind('.')`). -/
def lastDotIdx : List Char → Option Nat
  | [] => none
  | c :: rest =>
    match lastDotIdx rest with
    | some i => some (i + 1)
    | none => if c = '.' then some 0 else none

/-- `Path(s).suffix`: the part of the name from its last dot on, provided
that dot is neither the first nor the last character of the name. -/
def pathSuffix (s : String) : String :=
  let n := (pathName s).data
  match lastDotIdx n with
  | some i => if 0 < i ∧ i + 1 < n.length then ⟨n.drop i⟩ else ""
  | none => ""

/-- `Path(s).stem`: the name up to its last dot, under the same proviso
as `pathSuffix`; otherwise the whole name. -/
def pathStem (s : String) : String :=
  let n := (pathName s).data
  match lastDotIdx n with
  | some i => if 0 < i ∧ i + 1 < n.length then ⟨n.take i⟩ else ⟨n⟩
  | none => ⟨n⟩

/-- Modelled from the Python standard library: an abridged
`mimetypes.guess_extension` table for the media types relevant to an
image downloader.  No claim depends on its exact contents: the engine
only consults it on the content-type refinement path, which is proved
unreachable. -/
def mimeGuessExtension (ct : String) : Option String :=
  if ct = "image/jpeg" then some ".jpg"
  else if ct = "image/png" then some ".png"
  else if ct = "image/gif" then some ".gif"
  else if ct = "image/webp" then some ".webp"
  else if ct = "text/html" then some ".html"
  else none

/-- `guess_extension`: the URL path suffix when present, else a lookup of
the content type, else `".bin"`. -/
def guess_extension (url : String) (content_type : Option String) : String :=
  let urlExt := pathSuffix (urlsplitPath url)
  if urlExt ≠ "" then urlExt
  else
    match content_type with
    | some ct =>
      match mimeGuessExtension (pyStrip ((ct.splitOn ";").headD "")) with
      | some g => g
      | none => ".bin"
    | none => ".bin"

/-- Python `s.startswith(".")`. -/
def startsDot (s : String) : Bool :=
  match s.data with
  | '.' :: _ => true
  | _ => false

/-- `build_base_and_ext`: decide the destination base name and extension
before downloading.  When the URL path carries a final component, base
and extension are stem and suffix of its sanitized form; otherwise the
sanitized label (or `"image"`) is the base and the extension is empty,
to be filled in by `guess_extension` and dot-normalised. -/
def build_base_and_ext (name url : String) : String × String :=
  let origFilename := pathName (urlsplitPath url)
  let base :=
    if origFilename ≠ "" then pathStem (sanitize_filename origFilename)
    else sanitize_filename (if name = "" then "image" else name)
  let ext0 :=
    if origFilename ≠ "" then pathSuffix (sanitize_filename origFilename)
    else ""
  let ext1 := if ext0 = "" then guess_extension url none else ext0
  let ext2 := if !(startsDot ext1) then "." ++ ext1 else ext1
  (base, ext2)

/-- The candidate file name `f"{base}{ext}"` computed in `main`. -/
def candidateName (name url : String) : String :=
  (build_base_and_ext name url).1 ++ (build_base_and_ext name url).2

/-- The destination file name computed inside `download_file` after the
response arrives (`ext or guess_extension(url, content_type)`, then the
leading-dot normalisation). -/
def download_target_name (base ext url : String) (content_type : Option String) : String :=
  let resolvedExt := if ext = "" then guess_extension url content_type else ext
  let resolvedExt := if !(startsDot resolvedExt) then "." ++ resolvedExt else resolvedExt
  base ++ resolvedExt

/-! ### The engine -/

/-- Configuration constants of the script. -/
def BATCH_PAUSE_EVERY : Nat := 50

/-- Length of the batch pause, in seconds. -/
def BATCH_PAUSE_SECONDS : Nat := 5

/-- Name of the input CSV file. -/
def CSV_PATH : String := "target.csv"

/-- Result of one network fetch: the response content type on success,
or a classified error message (HTTPError / URLError /
ContentTooShortError / TimeoutError rendered as text). -/
inductive FetchResult where
  | ok : Option String → FetchResult
  | err : String → FetchResult
deriving DecidableEq, Repr

/-- Per-record console event, in the order the script prints them. -/
inductive Outcome where
  | ok : String → Outcome
  | skippedLedger : Outcome
  | skippedDisk : Outcome
  | innerSkip : String → Outcome
  | failed : String → Outcome
deriving DecidableEq, Repr

/-- One input record: `(name, url)` as yielded by `iter_csv_rows`. -/
abbrev Rec := String × String

/-- Observable state of one engine run: the download directory (list of
file names present), the two append-only logs, the in-memory
`already_success` set, the two counters of `main`, and instrumentation
traces (urls fetched, 1-based positions after which the batch pause
slept, per-record outcomes). -/
structure EngineState where
  files : List String
  successLog : List String
  failedLog : List String
  already : List String
  saved : Nat
  total : Nat
  fetched : List String
  slept : List Nat
  outcomes : List Outcome
deriving DecidableEq, Repr

/-- One line of `load_logged_names`: a non-blank stripped line is
registered as a completed name; when the line parses as a URL whose
path has a final component, the sanitized component is registered as
well. -/
def loadLine (acc : List String) (raw : String) : List String :=
  let line := pyStrip raw
  if line = "" then acc
  else
    let acc1 := line :: acc
    let urlName := pathName (urlsplitPath line)
    if urlName ≠ "" then sanitize_filename urlName :: acc1 else acc1

/-- `load_logged_names`: the set of names collected from the success
log, one line at a time (membership-equivalent model of the Python
`set`). -/
def load_logged_names (log : List String) : List String :=
  log.foldl loadLine []

/-- `download_file`: issue the fetch; on error append to the failure log
and return no path; on success recompute the destination name, skip
(but still log the name) when it already exists on disk, otherwise
write the file, log the name and return it. -/
def download_file (fetch : String → FetchResult) (st : EngineState)
    (url base ext : String) : EngineState × Option String :=
  match fetch url with
  | FetchResult.err e =>
    ({ st with failedLog := st.failedLog ++ [url ++ " (" ++ e ++ ")"],
               fetched := st.fetched ++ [url],
               outcomes := st.outcomes ++ [Outcome.failed e] }, none)
  | FetchResult.ok contentType =>
    let target := download_target_name base ext url contentType
    if target ∈ st.files then
      ({ st with successLog := st.successLog ++ [target],
                 fetched := st.fetched ++ [url],
                 outcomes := st.outcomes ++ [Outcome.innerSkip target] }, none)
    else
      ({ st with files := st.files ++ [target],
                 successLog := st.successLog ++ [target],
                 fetched := st.fetched ++ [url],
                 outcomes := st.outcomes ++ [Outcome.ok target] }, some target)

/-- One iteration of the loop in `main`: resolve the candidate name,
skip when it is ledgered or on disk (both paths `continue`, bypassing
the batch pause), otherwise download; after a non-skipped record, sleep
the batch pause when the 1-based position is a multiple of
`BATCH_PAUSE_EVERY`. -/
def processRecord (fetch : String → FetchResult) (st : EngineState) (r : Rec) :
    EngineState :=
  let t := st.total + 1
  let be := build_base_and_ext r.1 r.2
  let candidate := be.1 ++ be.2
  if candidate ∈ st.already then
    { st with total := t, outcomes := st.outcomes ++ [Outcome.skippedLedger] }
  else if candidate ∈ st.files then
    { st with total := t,
              successLog := st.successLog ++ [candidate],
              already := candidate :: st.already,
              outcomes := st.outcomes ++ [Outcome.skippedDisk] }
  else
    let df := download_file fetch st r.2 be.1 be.2
    let st1 :=
      match df.2 with
      | some target => { df.1 with saved := df.1.saved + 1, already := target :: df.1.already }
      | none => df.1
    let st2 := { st1 with total := t }
    if t % BATCH_PAUSE_EVERY = 0 then { st2 with slept := st2.slept ++ [t] } else st2

/-- The whole loop of `main` over the input records. -/
def mainLoop (fetch : String → FetchResult) (st : EngineState) (rs : List Rec) :
    EngineState :=
  rs.foldl (processRecord fetch) st

/-- Engine state at the top of a run: the download directory and success
log hold what previous runs left (`files0`, `log0`), the in-memory set
is loaded from the log, counters and traces start empty. -/
def initState (log0 files0 : List String) : EngineState :=
  { files := files0, successLog := log0, failedLog := [],
    already := load_logged_names log0, saved := 0, total := 0,
    fetched := [], slept := [], outcomes := [] }

/-- `main`: abort when the input CSV is missing, before touching
anything; otherwise run the loop to completion. -/
def mainRun (csvExists : Bool) (records : List Rec) (log0 files0 : List String)
    (fetch : String → FetchResult) : Except String EngineState :=
  if csvExists then Except.ok (mainLoop fetch (initState log0 files0) records)
  else Except.error ("CSV not found: " ++ CSV_PATH)

/-- One engine pass over `rs` starting from a success log and download
directory left by earlier runs. -/
def runPass (fetch : String → FetchResult) (log0 files0 : List String)
    (rs : List Rec) : EngineState :=
  mainLoop fetch (initState log0 files0) rs

/-- The engine state at the top of a second pass over the same unchanged
environment: the log and download directory are whatever the first pass
over `rs` left behind. -/
def secondPassInit (fetch : String → FetchResult) (log0 files0 : List String)
    (rs : List Rec) : EngineState :=
  initState (runPass fetch log0 files0 rs).successLog (runPass fetch log0 files0 rs).files

/-- A string free of the filesystem-hostile characters. -/
def CleanStr (s : String) : Prop := ∀ c ∈ s.data, isInvalidChar c = false

/-- Every in-memory ledger entry is either an entry loaded from the
initial success log or the name of a file present on disk. -/
def LedgerInv (L : List String) (st : EngineState) : Prop :=
  ∀ x ∈ st.already, x ∈ L ∨ x ∈ st.files

/-- Every name appended to the success log during the run is in the
in-memory set: invariant form used for claim C4. -/
def AppendInv (log0 : List String) (st : EngineState) : Prop :=
  ∃ d, st.successLog = log0 ++ d ∧ ∀ x ∈ d, x ∈ st.already

/-! ### Helper lemmas about name resolution -/

theorem startsDot_ne_empty {s : String} (h : startsDot s = true) : s ≠ "" := by
  intro he
  subst he
  exact absurd h (by decide)

theorem startsDot_dot_append (s : String) : startsDot ("." ++ s) = true := by
  obtain ⟨d⟩ := s
  rfl

theorem dotNorm_startsDot (e : String) :
    startsDot (if !(startsDot e) then "." ++ e else e) = true := by
  cases hb : startsDot e
  · simp only [hb, Bool.not_false, if_true]
    exact startsDot_dot_append e
  · simp [hb]

theorem build_ext_startsDot (n u : String) :
    startsDot (build_base_and_ext n u).2 = true := by
  simp only [build_base_and_ext]
  exact dotNorm_startsDot _

theorem build_ext_ne (n u : String) : (build_base_and_ext n u).2 ≠ "" :=
  startsDot_ne_empty (build_ext_startsDot n u)

theorem download_target_eq (n u : String) (ct : Option String) :
    download_target_name (build_base_and_ext n u).1 (build_base_and_ext n u).2 u ct
      = candidateName n u := by
  simp [download_target_name, candidateName, if_neg (build_ext_ne n u),
    build_ext_startsDot n u]

/-! ### Step equations for `processRecord` -/

theorem step_ledger (fetch : String → FetchResult) (st : EngineState) (r : Rec)
    (h : candidateName r.1 r.2 ∈ st.already) :
    processRecord fetch st r =
      { st with total := st.total + 1,
                outcomes := st.outcomes ++ [Outcome.skippedLedger] } := by
  simp only [candidateName] at h
  simp only [processRecord, if_pos h]

theorem step_disk (fetch : String → FetchResult) (st : EngineState) (r : Rec)
    (h1 : candidateName r.1 r.2 ∉ st.already) (h2 : candidateName r.1 r.2 ∈ st.files) :
    processRecord fetch st r =
      { st with total := st.total + 1,
                successLog := st.successLog ++ [candidateName r.1 r.2],
                already := candidateName r.1 r.2 :: st.already,
                outcomes := st.outcomes ++ [Outcome.skippedDisk] } := by
  simp only [candidateName] at h1 h2 ⊢
  simp only [processRecord, if_neg h1, if_pos h2]

theorem step_err (fetch : String → FetchResult) (st : EngineState) (r : Rec) (e : String)
    (h1 : candidateName r.1 r.2 ∉ st.already) (h2 : candidateName r.1 r.2 ∉ st.files)
    (hf : fetch r.2 = FetchResult.err e) :
    processRecord fetch st r =
      { st with failedLog := st.failedLog ++ [r.2 ++ " (" ++ e ++ ")"],
                fetched := st.fetched ++ [r.2],
                outcomes := st.outcomes ++ [Outcome.failed e],
                total := st.total + 1,
                slept := if (st.total + 1) % BATCH_PAUSE_EVERY = 0
                         then st.slept ++ [st.total + 1] else st.slept } := by
  simp only [candidateName] at h1 h2
  simp only [processRecord, if_neg h1, if_neg h2, download_file, hf]
  by_cases hc : (st.total + 1) % BATCH_PAUSE_EVERY = 0 <;> simp only [hc, if_pos, if_neg, if_true, if_false]

theorem step_ok (fetch : String → FetchResult) (st : EngineState) (r : Rec)
    (ct : Option String)
    (h1 : candidateName r.1 r.2 ∉ st.already) (h2 : candidateName r.1 r.2 ∉ st.files)
    (hf : fetch r.2 = FetchResult.ok ct) :
    processRecord fetch st r =
      { st with files := st.files ++ [candidateName r.1 r.2],
                successLog := st.successLog ++ [candidateName r.1 r.2],
                already := candidateName r.1 r.2 :: st.already,
                saved := st.saved + 1,
                fetched := st.fetched ++ [r.2],
                outcomes := st.outcomes ++ [Outcome.ok (candidateName r.1 r.2)],
                total := st.total + 1,
                slept := if (st.total + 1) % BATCH_PAUSE_EVERY = 0
                         then st.slept ++ [st.total + 1] else st.slept } := by
  have ht := download_target_eq r.1 r.2 ct
  simp only [candidateName] at h1 h2 ⊢
  simp only [candidateName] at ht
  simp only [processRecord, if_neg h1, if_neg h2, download_file, hf, ht, if_neg h2]
  by_cases hc : (st.total + 1) % BATCH_PAUSE_EVERY = 0 <;> simp only [hc, if_pos, if_neg, if_true, if_false]

/-! ### Monotonicity of the engine state -/

theorem step_already_mono (f : String → FetchResult) (st : EngineState) (r : Rec)
    (x : String) (hx : x ∈ st.already) : x ∈ (processRecord f st r).already := by
  by_cases h1 : candidateName r.1 r.2 ∈ st.already
  · rw [step_ledger f st r h1]; exact hx
  · by_cases h2 : candidateName r.1 r.2 ∈ st.files
    · rw [step_disk f st r h1 h2]; exact List.mem_cons_of_mem _ hx
    · cases hf : f r.2 with
      | ok ct => rw [step_ok f st r ct h1 h2 hf]; exact List.mem_cons_of_mem _ hx
      | err e => rw [step_err f st r e h1 h2 hf]; exact hx

theorem step_files_mono (f : String → FetchResult) (st : EngineState) (r : Rec)
    (x : String) (hx : x ∈ st.files) : x ∈ (processRecord f st r).files := by
  by_cases h1 : candidateName r.1 r.2 ∈ st.already
  · rw [step_ledger f st r h1]; exact hx
  · by_cases h2 : candidateName r.1 r.2 ∈ st.files
    · rw [step_disk f st r h1 h2]; exact hx
    · cases hf : f r.2 with
      | ok ct => rw [step_ok f st r ct h1 h2 hf]; exact List.mem_append_left _ hx
      | err e => rw [step_err f st r e h1 h2 hf]; exact hx

theorem step_successLog_ext (f : String → FetchResult) (st : EngineState) (r : Rec) :
    ∃ d, (processRecord f st r).successLog = st.successLog ++ d := by
  by_cases h1 : candidateName r.1 r.2 ∈ st.already
  · exact ⟨[], by rw [step_ledger f st r h1]; simp⟩
  · by_cases h2 : candidateName r.1 r.2 ∈ st.files
    · exact ⟨[candidateName r.1 r.2], by rw [step_disk f st r h1 h2]⟩
    · cases hf : f r.2 with
      | ok ct => exact ⟨[candidateName r.1 r.2], by rw [step_ok f st r ct h1 h2 hf]⟩
      | err e => exact ⟨[], by rw [step_err f st r e h1 h2 hf]; simp⟩

theorem step_total (f : String → FetchResult) (st : EngineState) (r : Rec) :
    (processRecord f st r).total = st.total + 1 := by
  by_cases h1 : candidateName r.1 r.2 ∈ st.already
  · rw [step_ledger f st r h1]
  · by_cases h2 : candidateName r.1 r.2 ∈ st.files
    · rw [step_disk f st r h1 h2]
    · cases hf : f r.2 with
      | ok ct => rw [step_ok f st r ct h1 h2 hf]
      | err e => rw [step_err f st r e h1 h2 hf]

theorem mainLoop_cons (f : String → FetchResult) (st : EngineState) (r : Rec)
    (rs : List Rec) : mainLoop f st (r :: rs) = mainLoop f (processRecord f st r) rs := rfl

theorem mainLoop_append (f : String → FetchResult) (st : EngineState)
    (l1 l2 : List Rec) : mainLoop f st (l1 ++ l2) = mainLoop f (mainLoop f st l1) l2 :=
  List.foldl_append _ _ _ _

theorem run_already_mono (f : String → FetchResult) (rs : List Rec) :
    ∀ st x, x ∈ st.already → x ∈ (mainLoop f st rs).already := by
  induction rs with
  | nil => exact fun st x hx => hx
  | cons r rest ih => exact fun st x hx => ih _ _ (step_already_mono f st r x hx)

theorem run_files_mono (f : String → FetchResult) (rs : List Rec) :
    ∀ st x, x ∈ st.files → x ∈ (mainLoop f st rs).files := by
  induction rs with
  | nil => exact fun st x hx => hx
  | cons r rest ih => exact fun st x hx => ih _ _ (step_files_mono f st r x hx)

theorem run_successLog_ext (f : String → FetchResult) (rs : List Rec) :
    ∀ st, ∃ d, (mainLoop f st rs).successLog = st.successLog ++ d := by
  induction rs with
  | nil => exact fun st => ⟨[], by simp [mainLoop]⟩
  | cons r rest ih =>
    intro st
    obtain ⟨d1, hd1⟩ := step_successLog_ext f st r
    obtain ⟨d2, hd2⟩ := ih (processRecord f st r)
    exact ⟨d1 ++ d2, by rw [mainLoop_cons, hd2, hd1, List.append_assoc]⟩

theorem run_total (f : String → FetchResult) (rs : List Rec) :
    ∀ st, (mainLoop f st rs).total = st.total + rs.length := by
  induction rs with
  | nil => exact fun st => rfl
  | cons r rest ih =>
    intro st
    rw [mainLoop_cons, ih, step_total]
    simp [Nat.add_assoc, Nat.add_comm 1]

/-! ### The ledger invariants -/

theorem step_ledgerInv (L : List String) (f : String → FetchResult) (st : EngineState)
    (r : Rec) (h : LedgerInv L st) : LedgerInv L (processRecord f st r) := by
  by_cases h1 : candidateName r.1 r.2 ∈ st.already
  · rw [step_ledger f st r h1]; exact h
  · by_cases h2 : candidateName r.1 r.2 ∈ st.files
    · rw [step_disk f st r h1 h2]
      intro x hx
      rcases List.mem_cons.mp hx with hx | hx
      · exact Or.inr (hx ▸ h2)
      · exact h x hx
    · cases hf : f r.2 with
      | ok ct =>
        rw [step_ok f st r ct h1 h2 hf]
        intro x hx
        rcases List.mem_cons.mp hx with hx | hx
        · exact Or.inr (by simp [hx])
        · rcases h x hx with hl | hfl
          · exact Or.inl hl
          · exact Or.inr (List.mem_append_left _ hfl)
      | err e =>
        rw [step_err f st r e h1 h2 hf]
        exact h

theorem run_ledgerInv (L : List String) (f : String → FetchResult) (rs : List Rec) :
    ∀ st, LedgerInv L st → LedgerInv L (mainLoop f st rs) := by
  induction rs with
  | nil => exact fun st h => h
  | cons r rest ih => exact fun st h => ih _ (step_ledgerInv L f st r h)

theorem step_appendInv (log0 : List String) (f : String → FetchResult)
    (st : EngineState) (r : Rec) (h : AppendInv log0 st) :
    AppendInv log0 (processRecord f st r) := by
  obtain ⟨d, hd, hsub⟩ := h
  by_cases h1 : candidateName r.1 r.2 ∈ st.already
  · rw [step_ledger f st r h1]; exact ⟨d, hd, hsub⟩
  · by_cases h2 : candidateName r.1 r.2 ∈ st.files
    · rw [step_disk f st r h1 h2]
      refine ⟨d ++ [candidateName r.1 r.2], by rw [hd, List.append_assoc], ?_⟩
      intro x hx
      rcases List.mem_append.mp hx with hx | hx
      · exact List.mem_cons_of_mem _ (hsub x hx)
      · exact List.mem_singleton.mp hx ▸ List.mem_cons_self _ _
    · cases hf : f r.2 with
      | ok ct =>
        rw [step_ok f st r ct h1 h2 hf]
        refine ⟨d ++ [candidateName r.1 r.2], by rw [hd, List.append_assoc], ?_⟩
        intro x hx
        rcases List.mem_append.mp hx with hx | hx
        · exact List.mem_cons_of_mem _ (hsub x hx)
        · exact List.mem_singleton.mp hx ▸ List.mem_cons_self _ _
      | err e =>
        rw [step_err f st r e h1 h2 hf]; exact ⟨d, hd, hsub⟩

theorem run_appendInv (log0 : List String) (f : String → FetchResult) (rs : List Rec) :
    ∀ st, AppendInv log0 st → AppendInv log0 (mainLoop f st rs) := by
  induction rs with
  | nil => exact fun st h => h
  | cons r rest ih => exact fun st h => ih _ (step_appendInv log0 f st r h)

/-! ### Lemmas about `load_logged_names` -/

theorem loadLine_sub (acc : List String) (raw : String) :
    ∀ x ∈ acc, x ∈ loadLine acc raw := by
  intro x hx
  unfold loadLine
  by_cases hb : pyStrip raw = ""
  · simpa [hb] using hx
  · by_cases hn : pathName (urlsplitPath (pyStrip raw)) ≠ "" <;>
      simp [hb, hn, List.mem_cons_of_mem, hx]

theorem load_acc_sub (l : List String) :
    ∀ acc x, x ∈ acc → x ∈ l.foldl loadLine acc := by
  induction l with
  | nil => exact fun acc x hx => hx
  | cons raw rest ih =>
    exact fun acc x hx => ih _ _ (loadLine_sub acc raw x hx)

theorem load_append_mono (l l2 : List String) (x : String)
    (hx : x ∈ load_logged_names l) : x ∈ load_logged_names (l ++ l2) := by
  unfold load_logged_names at hx ⊢
  rw [List.foldl_append]
  exact load_acc_sub l2 _ x hx

theorem loadLine_mem_derived (acc : List String) (raw : String)
    (hb : pyStrip raw ≠ "") (hn : pathName (urlsplitPath (pyStrip raw)) ≠ "") :
    sanitize_filename (pathName (urlsplitPath (pyStrip raw))) ∈ loadLine acc raw := by
  unfold loadLine
  simp [hb, hn]

theorem load_foldl_mem_derived (l : List String) :
    ∀ acc raw, raw ∈ l → pyStrip raw ≠ "" →
      pathName (urlsplitPath (pyStrip raw)) ≠ "" →
      sanitize_filename (pathName (urlsplitPath (pyStrip raw))) ∈ l.foldl loadLine acc := by
  induction l with
  | nil => intro acc raw hraw; cases hraw
  | cons a rest ih =>
    intro acc raw hraw hb hn
    rcases List.mem_cons.mp hraw with h | h
    · subst h
      exact load_acc_sub rest _ _ (loadLine_mem_derived acc raw hb hn)
    · exact ih _ raw h hb hn

theorem load_mem_derived (l : List String) (raw : String) (hraw : raw ∈ l)
    (hb : pyStrip raw ≠ "") (hn : pathName (urlsplitPath (pyStrip raw)) ≠ "") :
    sanitize_filename (pathName (urlsplitPath (pyStrip raw))) ∈ load_logged_names l :=
  load_foldl_mem_derived l [] raw hraw hb hn

/-! ### Character-level lemmas about sanitization and path names -/

theorem replaceInvalid_not_invalid (c : Char) : isInvalidChar (replaceInvalid c) = false := by
  unfold replaceInvalid
  by_cases h : isInvalidChar c = true
  · rw [if_pos h]; decide
  · rw [if_neg h]; exact Bool.not_eq_true _ ▸ h

theorem pyStrip_data_sub (s : String) : ∀ c ∈ (pyStrip s).data, c ∈ s.data := by
  intro c hc
  unfold pyStrip at hc
  simp only [List.mem_reverse] at hc
  have h1 := (List.dropWhile_sublist (l := (s.data.dropWhile pyIsSpace).reverse)
    (p := pyIsSpace)).subset hc
  rw [List.mem_reverse] at h1
  exact (List.dropWhile_sublist (l := s.data) (p := pyIsSpace)).subset h1

theorem clean_sanitize (s : String) : CleanStr (sanitize_filename s) := by
  unfold sanitize_filename
  by_cases h : pyStrip ⟨s.data.map replaceInvalid⟩ = ""
  · rw [if_pos h]
    unfold CleanStr
    decide
  · rw [if_neg h]
    intro c hc
    have h1 := pyStrip_data_sub ⟨s.data.map replaceInvalid⟩ c hc
    simp only [List.mem_map] at h1
    obtain ⟨c0, _, rfl⟩ := h1
    exact replaceInvalid_not_invalid c0

theorem splitChar_chars_sub (sep : Char) (cs : List Char) :
    ∀ p ∈ splitChar sep cs, ∀ c ∈ p, c ∈ cs := by
  induction cs with
  | nil =>
    intro p hp c hc
    simp only [splitChar, List.mem_singleton] at hp
    subst hp
    cases hc
  | cons a rest ih =>
    intro p hp c hc
    rw [splitChar] at hp
    by_cases ha : a = sep
    · rw [if_pos ha] at hp
      rcases List.mem_cons.mp hp with h | h
      · subst h; cases hc
      · exact List.mem_cons_of_mem _ (ih p h c hc)
    · rw [if_neg ha] at hp
      cases hsp : splitChar sep rest with
      | nil =>
        rw [hsp] at hp
        simp only [List.mem_singleton] at hp
        subst hp
        rw [List.mem_singleton.mp hc]
        exact List.mem_cons_self _ _
      | cons q qs =>
        rw [hsp] at hp
        rcases List.mem_cons.mp hp with h | h
        · subst h
          rcases List.mem_cons.mp hc with h | h
          · subst h; exact List.mem_cons_self _ _
          · exact List.mem_cons_of_mem _ (ih q (hsp ▸ List.mem_cons_self _ _) c h)
        · exact List.mem_cons_of_mem _ (ih p (hsp ▸ List.mem_cons_of_mem _ h) c hc)

theorem getLastD_mem_or (l : List (List Char)) : l.getLastD [] ∈ l ∨ l.getLastD [] = [] := by
  induction l with
  | nil => exact Or.inr rfl
  | cons a rest ih =>
    cases rest with
    | nil => exact Or.inl (by simp)
    | cons b rest2 =>
      rcases ih with h | h
      · exact Or.inl (List.mem_cons_of_mem _ h)
      · exact Or.inr h

theorem pathName_chars_sub (s : String) : ∀ c ∈ (pathName s).data, c ∈ s.data := by
  intro c hc
  unfold pathName at hc
  rcases getLastD_mem_or (pathParts s) with h | h
  · have hp := List.mem_of_mem_filter h
    exact splitChar_chars_sub '/' s.data _ hp c hc
  · rw [h] at hc; cases hc

theorem pathStem_eq_none (s : String) (h : lastDotIdx (pathName s).data = none) :
    pathStem s = ⟨(pathName s).data⟩ := by
  simp only [pathStem]
  rw [h]

theorem pathStem_eq_pos (s : String) (i : Nat) (h : lastDotIdx (pathName s).data = some i)
    (hc : 0 < i ∧ i + 1 < (pathName s).data.length) :
    pathStem s = ⟨(pathName s).data.take i⟩ := by
  simp only [pathStem]
  rw [h]
  exact if_pos hc

theorem pathStem_eq_neg (s : String) (i : Nat) (h : lastDotIdx (pathName s).data = some i)
    (hc : ¬(0 < i ∧ i + 1 < (pathName s).data.length)) :
    pathStem s = ⟨(pathName s).data⟩ := by
  simp only [pathStem]
  rw [h]
  exact if_neg hc

theorem pathSuffix_eq_none (s : String) (h : lastDotIdx (pathName s).data = none) :
    pathSuffix s = "" := by
  simp only [pathSuffix]
  rw [h]

theorem pathSuffix_eq_pos (s : String) (i : Nat) (h : lastDotIdx (pathName s).data = some i)
    (hc : 0 < i ∧ i + 1 < (pathName s).data.length) :
    pathSuffix s = ⟨(pathName s).data.drop i⟩ := by
  simp only [pathSuffix]
  rw [h]
  exact if_pos hc

theorem pathSuffix_eq_neg (s : String) (i : Nat) (h : lastDotIdx (pathName s).data = some i)
    (hc : ¬(0 < i ∧ i + 1 < (pathName s).data.length)) :
    pathSuffix s = "" := by
  simp only [pathSuffix]
  rw [h]
  exact if_neg hc

theorem pathStem_chars_sub (s : String) : ∀ c ∈ (pathStem s).data, c ∈ (pathName s).data := by
  intro c hc
  cases h : lastDotIdx (pathName s).data with
  | none => rw [pathStem_eq_none s h] at hc; exact hc
  | some i =>
    by_cases hcond : 0 < i ∧ i + 1 < (pathName s).data.length
    · rw [pathStem_eq_pos s i h hcond] at hc
      exact (List.take_sublist i _).subset hc
    · rw [pathStem_eq_neg s i h hcond] at hc; exact hc

theorem build_base_eq_url (label url : String) (h : pathName (urlsplitPath url) ≠ "") :
    (build_base_and_ext label url).1
      = pathStem (sanitize_filename (pathName (urlsplitPath url))) := by
  simp only [build_base_and_ext]
  rw [if_pos h]

theorem build_base_eq_label (label url : String) (h : pathName (urlsplitPath url) = "") :
    (build_base_and_ext label url).1
      = sanitize_filename (if label = "" then "image" else label) := by
  simp only [build_base_and_ext]
  rw [if_neg (not_not_intro h)]

theorem clean_build_base (label url : String) : CleanStr (build_base_and_ext label url).1 := by
  intro c hc
  by_cases h : pathName (urlsplitPath url) = ""
  · rw [build_base_eq_label label url h] at hc
    exact clean_sanitize _ c hc
  · rw [build_base_eq_url label url h] at hc
    exact clean_sanitize _ c (pathName_chars_sub _ c (pathStem_chars_sub _ c hc))

/-! ### Facts about `lastDotIdx`, stems and suffixes -/

theorem lastDotIdx_drop (cs : List Char) :
    ∀ i, lastDotIdx cs = some i → cs.drop i = '.' :: cs.drop (i + 1) := by
  induction cs with
  | nil => intro i h; cases h
  | cons c rest ih =>
    intro i h
    rw [lastDotIdx] at h
    cases hr : lastDotIdx rest with
    | some j =>
      rw [hr] at h
      injection h with h
      subst h
      simpa using ih j hr
    | none =>
      rw [hr] at h
      by_cases hc : c = '.'
      · rw [if_pos hc] at h
        injection h with h
        subst h
        subst hc
        rfl
      · rw [if_neg hc] at h; cases h

theorem pathSuffix_startsDot (s : String) (h : pathSuffix s ≠ "") :
    startsDot (pathSuffix s) = true := by
  cases hd : lastDotIdx (pathName s).data with
  | none => exact absurd (pathSuffix_eq_none s hd) h
  | some i =>
    by_cases hcond : 0 < i ∧ i + 1 < (pathName s).data.length
    · rw [pathSuffix_eq_pos s i hd hcond, lastDotIdx_drop (pathName s).data i hd]
      rfl
    · exact absurd (pathSuffix_eq_neg s i hd hcond) h

theorem stem_append_suffix (s : String) (h : pathSuffix s ≠ "") :
    pathStem s ++ pathSuffix s = pathName s := by
  cases hd : lastDotIdx (pathName s).data with
  | none => exact absurd (pathSuffix_eq_none s hd) h
  | some i =>
    by_cases hcond : 0 < i ∧ i + 1 < (pathName s).data.length
    · rw [pathStem_eq_pos s i hd hcond, pathSuffix_eq_pos s i hd hcond]
      show (⟨(pathName s).data.take i ++ (pathName s).data.drop i⟩ : String) = pathName s
      rw [List.take_append_drop]
    · exact absurd (pathSuffix_eq_neg s i hd hcond) h

/-! ### More name-resolution facts -/

theorem build_ext_eq_suffix (label url : String) (hn : pathName (urlsplitPath url) ≠ "")
    (hsuf : pathSuffix (sanitize_filename (pathName (urlsplitPath url))) ≠ "") :
    (build_base_and_ext label url).2
      = pathSuffix (sanitize_filename (pathName (urlsplitPath url))) := by
  simp only [build_base_and_ext]
  rw [if_pos hn, if_neg hsuf, pathSuffix_startsDot _ hsuf]
  exact if_neg (by decide)

theorem sanitize_ne_empty (s : String) : sanitize_filename s ≠ "" := by
  unfold sanitize_filename
  by_cases h : pyStrip ⟨s.data.map replaceInvalid⟩ = ""
  · rw [if_pos h]; decide
  · rw [if_neg h]; exact h

theorem splitChar_no_sep (sep : Char) (cs : List Char) (h : ∀ c ∈ cs, c ≠ sep) :
    splitChar sep cs = [cs] := by
  induction cs with
  | nil => rfl
  | cons a rest ih =>
    rw [splitChar, if_neg (h a (List.mem_cons_self a rest)),
      ih (fun c hc => h c (List.mem_cons_of_mem a hc))]

theorem pathName_plain (s : String) (hne : s ≠ "") (hdot : s.data ≠ ['.'])
    (hslash : ∀ c ∈ s.data, c ≠ '/') : pathName s = s := by
  unfold pathName pathParts
  rw [splitChar_no_sep '/' s.data hslash]
  have h1 : s.data ≠ [] := by
    intro h
    apply hne
    cases s with
    | mk d => rw [show d = [] from h]
  have h2 : (s.data != [] && s.data != ['.']) = true := by
    rw [Bool.and_eq_true, bne_iff_ne, bne_iff_ne]
    exact ⟨h1, hdot⟩
  rw [List.filter_cons, if_pos h2]
  show (⟨[s.data].getLastD []⟩ : String) = s
  cases s with
  | mk d => rfl

theorem sanitize_no_slash (s : String) : ∀ c ∈ (sanitize_filename s).data, c ≠ '/' := by
  intro c hc he
  have h := clean_sanitize s c hc
  rw [he] at h
  exact absurd h (by decide)

theorem pathName_of_data_dot (t : String) (hd : t.data = ['.']) : pathName t = "" := by
  unfold pathName pathParts
  rw [hd]
  rfl

/-- The candidate name equals the whole sanitized URL filename whenever
the sanitized filename has a proper suffix. -/
theorem candidate_of_suffixed (label url : String)
    (hn : pathName (urlsplitPath url) ≠ "")
    (hsuf : pathSuffix (sanitize_filename (pathName (urlsplitPath url))) ≠ "") :
    candidateName label url = sanitize_filename (pathName (urlsplitPath url)) := by
  have hplain : pathName (sanitize_filename (pathName (urlsplitPath url)))
      = sanitize_filename (pathName (urlsplitPath url)) := by
    apply pathName_plain
    · exact sanitize_ne_empty _
    · intro hd
      apply hsuf
      apply pathSuffix_eq_none
      rw [pathName_of_data_dot _ hd]
      rfl
    · exact sanitize_no_slash _
  rw [candidateName, build_base_eq_url label url hn, build_ext_eq_suffix label url hn hsuf,
    stem_append_suffix _ hsuf, hplain]

theorem step_outcome_inv (f : String → FetchResult) (st : EngineState) (r : Rec)
    (o : Outcome) (ho : (processRecord f st r).outcomes = st.outcomes ++ [o])
    (hno : ∀ e, o ≠ Outcome.failed e) :
    candidateName r.1 r.2 ∈ st.already ∨ candidateName r.1 r.2 ∈ (processRecord f st r).files := by
  by_cases h1 : candidateName r.1 r.2 ∈ st.already
  · exact Or.inl h1
  · by_cases h2 : candidateName r.1 r.2 ∈ st.files
    · refine Or.inr ?_
      rw [step_disk f st r h1 h2]
      exact h2
    · cases hf : f r.2 with
      | ok ct =>
        refine Or.inr ?_
        rw [step_ok f st r ct h1 h2 hf]
        exact List.mem_append_right _ (List.mem_singleton_self _)
      | err e =>
        rw [step_err f st r e h1 h2 hf] at ho
        have ho2 : st.outcomes ++ [Outcome.failed e] = st.outcomes ++ [o] := ho
        have h3 := List.append_cancel_left ho2
        simp only [List.cons.injEq, and_true] at h3
        exact absurd h3.symm (hno e)

theorem count_replaceInvalid (cs : List Char) :
    (cs.map replaceInvalid).count '_' = cs.count '_' + (cs.filter isInvalidChar).length := by
  induction cs with
  | nil => rfl
  | cons c rest ih =>
    by_cases h : isInvalidChar c = true
    · have hc : replaceInvalid c = '_' := by rw [replaceInvalid, if_pos h]
      have hne : c ≠ '_' := by
        intro he
        rw [he] at h
        exact absurd h (by decide)
      rw [List.map_cons, hc]
      simp only [List.count_cons, List.filter_cons, h, if_true, List.length_cons, ih]
      simp [hne]
      omega
    · have hc : replaceInvalid c = c := by rw [replaceInvalid, if_neg h]
      rw [List.map_cons, hc]
      have h2 : isInvalidChar c = false := Bool.not_eq_true _ ▸ h
      simp only [List.count_cons, List.filter_cons, h2, ih, Bool.false_eq_true, if_false]
      omega

/-! ### The claims -/

/-- C1, counterexample to the claim as stated: for the input record
`("l", "https://x/a. ?q")` the first pass ends in Ok (it saves the file
`"a.. "`, whose name ends in a space), yet the candidate name is NOT in
the set loaded from the resulting success log at the start of a second
pass, because `load_logged_names` strips each stored line, turning
`"a.. "` into `"a.."`. -/
theorem C1_cx :
    (mainLoop (fun _ => FetchResult.ok none) (initState [] [])
        [("l", "https://x/a. ?q")]).outcomes = [Outcome.ok "a.. "] ∧
    candidateName "l" "https://x/a. ?q"
      ∉ load_logged_names
          (mainLoop (fun _ => FetchResult.ok none) (initState [] [])
            [("l", "https://x/a. ?q")]).successLog := by
  decide

/-- C1 (amended): for every input record that ends in Ok or Skipped
during a first engine pass, at the moment the second pass over the same
unchanged input and environment reaches that record its candidate name
is in the in-memory ledger set or present as a file on disk, so the
second pass performs no fetch for that record: it is skipped by the
ledger pre-check or by the disk pre-check. -/
theorem C1_second_pass_skips (fetch : String → FetchResult) (log0 files0 : List String)
    (pre post : List Rec) (r : Rec) (o : Outcome)
    (ho : (processRecord fetch (runPass fetch log0 files0 pre) r).outcomes
        = (runPass fetch log0 files0 pre).outcomes ++ [o])
    (hno : ∀ e, o ≠ Outcome.failed e) :
    (processRecord fetch
        (mainLoop fetch (secondPassInit fetch log0 files0 (pre ++ r :: post)) pre) r).fetched
      = (mainLoop fetch (secondPassInit fetch log0 files0 (pre ++ r :: post)) pre).fetched ∧
    ((processRecord fetch
        (mainLoop fetch (secondPassInit fetch log0 files0 (pre ++ r :: post)) pre) r).outcomes
        = (mainLoop fetch (secondPassInit fetch log0 files0 (pre ++ r :: post)) pre).outcomes
          ++ [Outcome.skippedLedger] ∨
     (processRecord fetch
        (mainLoop fetch (secondPassInit fetch log0 files0 (pre ++ r :: post)) pre) r).outcomes
        = (mainLoop fetch (secondPassInit fetch log0 files0 (pre ++ r :: post)) pre).outcomes
          ++ [Outcome.skippedDisk]) := by
  have hr1 := step_outcome_inv fetch (runPass fetch log0 files0 pre) r o ho hno
  have hfin : runPass fetch log0 files0 (pre ++ r :: post)
      = mainLoop fetch (processRecord fetch (runPass fetch log0 files0 pre) r) post := by
    unfold runPass
    rw [mainLoop_append, mainLoop_cons]
  have hcand : candidateName r.1 r.2 ∈ load_logged_names log0
      ∨ candidateName r.1 r.2 ∈ (runPass fetch log0 files0 (pre ++ r :: post)).files := by
    rcases hr1 with h | h
    · have hinv : LedgerInv (load_logged_names log0) (runPass fetch log0 files0 pre) :=
        run_ledgerInv (load_logged_names log0) fetch pre (initState log0 files0)
          (fun x hx => Or.inl hx)
      rcases hinv _ h with hl | hf
      · exact Or.inl hl
      · refine Or.inr ?_
        rw [hfin]
        exact run_files_mono fetch post _ _ (step_files_mono fetch _ r _ hf)
    · refine Or.inr ?_
      rw [hfin]
      exact run_files_mono fetch post _ _ h
  have hload : candidateName r.1 r.2
        ∈ (secondPassInit fetch log0 files0 (pre ++ r :: post)).already
      ∨ candidateName r.1 r.2 ∈ (secondPassInit fetch log0 files0 (pre ++ r :: post)).files := by
    rcases hcand with h | h
    · obtain ⟨d, hd⟩ := run_successLog_ext fetch (pre ++ r :: post) (initState log0 files0)
      refine Or.inl ?_
      show candidateName r.1 r.2
        ∈ load_logged_names (runPass fetch log0 files0 (pre ++ r :: post)).successLog
      rw [show (runPass fetch log0 files0 (pre ++ r :: post)).successLog = log0 ++ d from hd]
      exact load_append_mono log0 d _ h
    · exact Or.inr h
  have hs2 : candidateName r.1 r.2
        ∈ (mainLoop fetch (secondPassInit fetch log0 files0 (pre ++ r :: post)) pre).already
      ∨ candidateName r.1 r.2
        ∈ (mainLoop fetch (secondPassInit fetch log0 files0 (pre ++ r :: post)) pre).files := by
    rcases hload with h | h
    · exact Or.inl (run_already_mono fetch pre _ _ h)
    · exact Or.inr (run_files_mono fetch pre _ _ h)
  by_cases hA : candidateName r.1 r.2
      ∈ (mainLoop fetch (secondPassInit fetch log0 files0 (pre ++ r :: post)) pre).already
  · rw [step_ledger fetch _ r hA]
    exact ⟨rfl, Or.inl rfl⟩
  · have hF := hs2.resolve_left hA
    rw [step_disk fetch _ r hA hF]
    exact ⟨rfl, Or.inr rfl⟩

/-- C1, witness: the single Ok record `("cat", "https://x/a.jpg")` is
skipped without a fetch on the second pass. -/
theorem C1_witness :
    (processRecord (fun _ => FetchResult.ok none)
        (mainLoop (fun _ => FetchResult.ok none)
          (secondPassInit (fun _ => FetchResult.ok none) [] []
            ([] ++ ("cat", "https://x/a.jpg") :: [])) []) ("cat", "https://x/a.jpg")).fetched
      = (mainLoop (fun _ => FetchResult.ok none)
          (secondPassInit (fun _ => FetchResult.ok none) [] []
            ([] ++ ("cat", "https://x/a.jpg") :: [])) []).fetched ∧
    ((processRecord (fun _ => FetchResult.ok none)
        (mainLoop (fun _ => FetchResult.ok none)
          (secondPassInit (fun _ => FetchResult.ok none) [] []
            ([] ++ ("cat", "https://x/a.jpg") :: [])) []) ("cat", "https://x/a.jpg")).outcomes
        = (mainLoop (fun _ => FetchResult.ok none)
            (secondPassInit (fun _ => FetchResult.ok none) [] []
              ([] ++ ("cat", "https://x/a.jpg") :: [])) []).outcomes
          ++ [Outcome.skippedLedger] ∨
     (processRecord (fun _ => FetchResult.ok none)
        (mainLoop (fun _ => FetchResult.ok none)
          (secondPassInit (fun _ => FetchResult.ok none) [] []
            ([] ++ ("cat", "https://x/a.jpg") :: [])) []) ("cat", "https://x/a.jpg")).outcomes
        = (mainLoop (fun _ => FetchResult.ok none)
            (secondPassInit (fun _ => FetchResult.ok none) [] []
              ([] ++ ("cat", "https://x/a.jpg") :: [])) []).outcomes
          ++ [Outcome.skippedDisk]) :=
  C1_second_pass_skips (fun _ => FetchResult.ok none) [] [] [] []
    ("cat", "https://x/a.jpg") (Outcome.ok "a.jpg") (by decide)
    (fun e h => Outcome.noConfusion h)

/-- C2: on the input `[("cat", "https://x/a.jpg"), ("dog", "https://x/a.jpg")]`
with a successful fetch, the engine fetches once, writes `a.jpg` once,
records it in the in-memory set and the persisted log, skips the second
record with no further network call, and reports 1 saved of 2
processed. -/
theorem C2_dedup_scenario :
    mainLoop (fun _ => FetchResult.ok (some "image/jpeg")) (initState [] [])
        [("cat", "https://x/a.jpg"), ("dog", "https://x/a.jpg")]
      = { files := ["a.jpg"], successLog := ["a.jpg"], failedLog := [],
          already := ["a.jpg"], saved := 1, total := 2,
          fetched := ["https://x/a.jpg"], slept := [],
          outcomes := [Outcome.ok "a.jpg", Outcome.skippedLedger] } := by
  decide

set_option maxRecDepth 10000 in
/-- C3, counterexample to the claim as stated: with 50 records whose
positions 2 to 50 are ledger-skipped, the record at position 50 (a
multiple of the batch size) triggers NO batch pause, because both skip
paths `continue` past the pause statement; the engine sleeps nowhere in
this run. -/
theorem C3_cx :
    (("cat", "https://x/a.jpg") :: List.replicate 49 ("dog", "https://x/a.jpg")
        : List Rec).length = 50 ∧
    (mainLoop (fun _ => FetchResult.ok none) (initState [] [])
        (("cat", "https://x/a.jpg") :: List.replicate 49 ("dog", "https://x/a.jpg"))).slept
      = [] ∧
    (mainLoop (fun _ => FetchResult.ok none) (initState [] [])
        (("cat", "https://x/a.jpg") :: List.replicate 49 ("dog", "https://x/a.jpg"))).outcomes
      = Outcome.ok "a.jpg" :: List.replicate 49 Outcome.skippedLedger := by
  decide

/-- C3 (amended): a record whose 1-based position is a multiple of
`BATCH_PAUSE_EVERY` is followed by the batch pause exactly when its
processing reached the download attempt (outcome Ok or Failed); records
skipped by the ledger or disk pre-check bypass the pause. -/
theorem C3_batch_pause (fetch : String → FetchResult) (st : EngineState) (r : Rec) :
    ((st.total + 1) % BATCH_PAUSE_EVERY = 0 →
      candidateName r.1 r.2 ∉ st.already → candidateName r.1 r.2 ∉ st.files →
      (processRecord fetch st r).slept = st.slept ++ [st.total + 1]) ∧
    (candidateName r.1 r.2 ∈ st.already ∨ candidateName r.1 r.2 ∈ st.files →
      (processRecord fetch st r).slept = st.slept) := by
  constructor
  · intro hm h1 h2
    cases hf : fetch r.2 with
    | ok ct =>
      rw [step_ok fetch st r ct h1 h2 hf]
      exact if_pos hm
    | err e =>
      rw [step_err fetch st r e h1 h2 hf]
      exact if_pos hm
  · intro h
    by_cases h1 : candidateName r.1 r.2 ∈ st.already
    · rw [step_ledger fetch st r h1]
    · rw [step_disk fetch st r h1 (h.resolve_left h1)]

/-- C3, witness: a failed download at position 50 does sleep the batch
pause. -/
theorem C3_witness :
    (processRecord (fun _ => FetchResult.err "timeout")
        { initState [] [] with total := 49 } ("l", "https://x/a.jpg")).slept = [50] :=
  (C3_batch_pause (fun _ => FetchResult.err "timeout")
    { initState [] [] with total := 49 } ("l", "https://x/a.jpg")).1
    (by decide) (by decide) (by decide)

/-- C4: every name appended to the persisted success log during a run
(of any length, hence at every intermediate point of a longer run) is a
member of the in-memory ledger set at the end of that run. -/
theorem C4_log_subset_already (fetch : String → FetchResult) (log0 files0 : List String)
    (rs : List Rec) (x : String)
    (hx : x ∈ ((mainLoop fetch (initState log0 files0) rs).successLog).drop log0.length) :
    x ∈ (mainLoop fetch (initState log0 files0) rs).already := by
  obtain ⟨d, hd, hsub⟩ :=
    run_appendInv log0 fetch rs (initState log0 files0)
      ⟨[], (List.append_nil log0).symm, by simp⟩
  rw [hd, List.drop_left] at hx
  exact hsub x hx

/-- C4, witness: the name `a.jpg` appended during a one-record run is in
the in-memory set. -/
theorem C4_witness :
    "a.jpg" ∈ ((mainLoop (fun _ => FetchResult.ok none) (initState [] [])
        [("cat", "https://x/a.jpg")]).successLog).drop ([] : List String).length ∧
    "a.jpg" ∈ (mainLoop (fun _ => FetchResult.ok none) (initState [] [])
        [("cat", "https://x/a.jpg")]).already :=
  ⟨by decide,
   C4_log_subset_already (fun _ => FetchResult.ok none) [] []
     [("cat", "https://x/a.jpg")] "a.jpg" (by decide)⟩

/-- C5, counterexample to the claim as stated: the legacy URL line
`"https://x/photo"` has no extension in its path filename, so loading
registers `"photo"`, while the engine derives the candidate
`"photo.bin"` for that same URL; the record is NOT skipped and a fetch
occurs. -/
theorem C5_cx :
    candidateName "l" "https://x/photo" ∉ load_logged_names ["https://x/photo"] ∧
    (processRecord (fun _ => FetchResult.err "boom")
        (initState ["https://x/photo"] []) ("l", "https://x/photo")).fetched
      = ["https://x/photo"] := by
  decide

/-- C5 (amended): for every stored success-log line that is a URL whose
path has a final component and whose sanitized filename carries a
proper (nonempty) suffix, loading the ledger registers that sanitized
filename, the candidate the engine derives for that same URL equals it,
and the record is skipped by the ledger pre-check. -/
theorem C5_legacy_url_ledger (fetch : String → FetchResult) (log files0 : List String)
    (label line : String) (hmem : line ∈ log) (hstrip : pyStrip line = line)
    (hn : pathName (urlsplitPath line) ≠ "")
    (hsuf : pathSuffix (sanitize_filename (pathName (urlsplitPath line))) ≠ "") :
    candidateName label line ∈ load_logged_names log ∧
    processRecord fetch (initState log files0) (label, line)
      = { initState log files0 with
          total := (initState log files0).total + 1,
          outcomes := (initState log files0).outcomes ++ [Outcome.skippedLedger] } := by
  have hline_ne : pyStrip line ≠ "" := by
    intro h0
    apply hn
    rw [show line = "" from hstrip.symm.trans h0]
    rfl
  have hnp : pathName (urlsplitPath (pyStrip line)) ≠ "" := by
    rw [hstrip]
    exact hn
  have hd := load_mem_derived log line hmem hline_ne hnp
  rw [hstrip] at hd
  have hcand : candidateName label line ∈ load_logged_names log := by
    rw [candidate_of_suffixed label line hn hsuf]
    exact hd
  exact ⟨hcand, step_ledger fetch (initState log files0) (label, line) hcand⟩

/-- C5, witness: a ledger holding the full URL `https://x/a.jpg` causes
the record with that URL to be skipped. -/
theorem C5_witness :
    candidateName "l" "https://x/a.jpg" ∈ load_logged_names ["https://x/a.jpg"] ∧
    processRecord (fun _ => FetchResult.err "boom")
        (initState ["https://x/a.jpg"] []) ("l", "https://x/a.jpg")
      = { initState ["https://x/a.jpg"] [] with
          total := (initState ["https://x/a.jpg"] []).total + 1,
          outcomes := (initState ["https://x/a.jpg"] []).outcomes
            ++ [Outcome.skippedLedger] } :=
  C5_legacy_url_ledger (fun _ => FetchResult.err "boom") ["https://x/a.jpg"] []
    "l" "https://x/a.jpg" (by decide) (by decide) (by decide) (by decide)

/-- C6: when the fetch of a non-skipped record fails, no file is
written, exactly one line holding the URL is appended to the failure
log and nothing to the success log, the in-memory set and saved count
are unchanged, and the loop continues with the remaining records. -/
theorem C6_fetch_failure (fetch : String → FetchResult) (st : EngineState)
    (name url e : String) (rest : List Rec)
    (h1 : candidateName name url ∉ st.already)
    (h2 : candidateName name url ∉ st.files)
    (hf : fetch url = FetchResult.err e) :
    (processRecord fetch st (name, url)).files = st.files ∧
    (processRecord fetch st (name, url)).failedLog
      = st.failedLog ++ [url ++ " (" ++ e ++ ")"] ∧
    (processRecord fetch st (name, url)).successLog = st.successLog ∧
    (processRecord fetch st (name, url)).already = st.already ∧
    (processRecord fetch st (name, url)).saved = st.saved ∧
    mainLoop fetch st ((name, url) :: rest)
      = mainLoop fetch (processRecord fetch st (name, url)) rest := by
  refine ⟨?_, ?_, ?_, ?_, ?_, mainLoop_cons fetch st (name, url) rest⟩ <;>
    rw [step_err fetch st (name, url) e h1 h2 hf]

/-- C6, witness: a timeout on `https://x/b.jpg` appends the URL to the
failure log and leaves everything else unchanged. -/
theorem C6_witness :
    (processRecord (fun _ => FetchResult.err "timeout") (initState [] [])
        ("l", "https://x/b.jpg")).files = [] ∧
    (processRecord (fun _ => FetchResult.err "timeout") (initState [] [])
        ("l", "https://x/b.jpg")).failedLog = [] ++ ["https://x/b.jpg (timeout)"] ∧
    (processRecord (fun _ => FetchResult.err "timeout") (initState [] [])
        ("l", "https://x/b.jpg")).saved = 0 := by
  have h := C6_fetch_failure (fun _ => FetchResult.err "timeout") (initState [] [])
    "l" "https://x/b.jpg" "timeout" [] (by decide) (by decide) rfl
  exact ⟨h.1, h.2.1, h.2.2.2.2.1⟩

/-- C7: the resolved base name never contains a filesystem-hostile
character, and the substitution stage of sanitization is one-for-one:
it preserves length and turns exactly the hostile occurrences into
additional underscores. -/
theorem C7_sanitization (label url s : String) :
    (∀ c ∈ (build_base_and_ext label url).1.data, isInvalidChar c = false) ∧
    (s.data.map replaceInvalid).length = s.data.length ∧
    (s.data.map replaceInvalid).count '_'
      = s.data.count '_' + (s.data.filter isInvalidChar).length ∧
    (∀ c ∈ (sanitize_filename s).data, isInvalidChar c = false) :=
  ⟨clean_build_base label url, by simp, count_replaceInvalid s.data, clean_sanitize s⟩

/-- C7, witness: the base resolved for `https://x/c|d.png` contains `c`
and no hostile character. -/
theorem C7_witness :
    'c' ∈ ((build_base_and_ext "a<b" "https://x/c|d.png").1).data ∧
    isInvalidChar 'c' = false :=
  ⟨by decide, (C7_sanitization "a<b" "https://x/c|d.png" "x").1 'c' (by decide)⟩

/-- C8: when the URL path has no final component and no content type is
available, the resolved extension is the default `".bin"`. -/
theorem C8_fallback_bin (label url : String) (h : pathName (urlsplitPath url) = "") :
    (build_base_and_ext label url).2 = ".bin" := by
  have hs : pathSuffix (urlsplitPath url) = "" := by
    apply pathSuffix_eq_none
    rw [h]
    decide
  have hg : guess_extension url none = ".bin" := by
    simp only [guess_extension]
    rw [hs]
    decide
  have h2 : (build_base_and_ext label url).2
      = if !(startsDot (guess_extension url none)) then "." ++ guess_extension url none
        else guess_extension url none := by
    simp only [build_base_and_ext]
    rw [if_neg (not_not_intro h)]
    rfl
  rw [h2, hg]
  decide

/-- C8, witness: `https://x/` resolves to the `.bin` extension. -/
theorem C8_witness :
    pathName (urlsplitPath "https://x/") = "" ∧
    (build_base_and_ext "label" "https://x/").2 = ".bin" :=
  ⟨by decide, C8_fallback_bin "label" "https://x/" (by decide)⟩

/-- C9: a missing input CSV aborts the run with an error before any
state is produced; an existing input runs the loop to completion over
all records and the reported total counts every record. -/
theorem C9_fail_fast (records : List Rec) (log0 files0 : List String)
    (fetch : String → FetchResult) :
    mainRun false records log0 files0 fetch
      = Except.error ("CSV not found: " ++ CSV_PATH) ∧
    mainRun true records log0 files0 fetch
      = Except.ok (mainLoop fetch (initState log0 files0) records) ∧
    (mainLoop fetch (initState log0 files0) records).total = records.length := by
  refine ⟨rfl, rfl, ?_⟩
  rw [run_total]
  exact Nat.zero_add _

/-- C10: the extension resolved before the fetch is never empty, so the
destination name recomputed inside `download_file` ignores the response
content type and always equals the pre-fetch candidate name. -/
theorem C10_content_type_never_used (name url : String) (ct : Option String) :
    (build_base_and_ext name url).2 ≠ "" ∧
    download_target_name (build_base_and_ext name url).1 (build_base_and_ext name url).2
        url ct
      = candidateName name url :=
  ⟨build_ext_ne name url, download_target_eq name url ct⟩

end ImageDL
